import Mathlib

/-
Verification of the DosNa chunked n-dimensional array storage layer.

This file gives a shallow embedding of the core data model and operations of
the repository:

  * `dosna/dataset.py` — the object-storage-pool chunked dataset engine:
    slice normalization (`Dataset._process_slices`), the chunk/region mapping
    iterator (`Dataset._get_chunk_slice_iterator`), the read scatter of
    `Dataset.__getitem__`, lazy chunk reads (`Dataset._get_chunk_data`),
    dataset creation preflight (`Dataset.create`) and chunk index
    normalization (`Dataset._transform_chunk_index`).
  * `dosna/backends/ram.py` — the in-memory backend: group lookup
    (`MemGroup.get_group` / `has_group`), connection-level group creation
    (`MemConnection.create_group`) and the in-memory data chunk
    (`MemDataChunk`).

Python integers are embedded as `Int` (arbitrary precision, as in Python);
Python floor division `//` is `Int.fdiv`.  NumPy arrays are embedded as a
shape together with a total valuation function from integer coordinate lists
to elements; element dtypes are abstracted to `Int` since none of the
verified properties depend on the element representation.  Fallible Python
code (raising exceptions) is embedded with `Except`.
-/

/-! ## Python values used by the slicing algebra -/

/-- A Python slice with both bounds resolved to integers, as produced by
`Dataset._process_slices` (`slice(start, stop)` with unit step). -/
structure PySlice where
  start : ℤ
  stop : ℤ
deriving DecidableEq, Repr

/-- One entry of a Python index expression, as examined entry-by-entry by
`Dataset._process_slices`: an integer, a `slice(start, stop, step)` literal
with optional components, the `Ellipsis` object, or a value of any other
type (which the entry loop rejects). -/
inductive PyEntry where
  | int (i : ℤ)
  | slice (start stop step : Option ℤ)
  | ellipsis
  | other
deriving DecidableEq, Repr

/-- The whole argument of `Dataset.__getitem__` / `__setitem__` as classified
by the head of `Dataset._process_slices`: a single entry (a bare `slice`,
`int` or `Ellipsis`), a `list`/`tuple` of entries, or a value of any other
type. -/
inductive PyIndexArg where
  | single (e : PyEntry)
  | tuple (l : List PyEntry)
  | invalid
deriving DecidableEq, Repr

/-- Failure outcomes of the slicing code paths.  `ds msg` is a
`DatasetException` with the given message (the spec's InvalidIndex error);
`indexError` is a Python `IndexError` raised when the entry loop evaluates
`self.shape[i]` for `i` past the rank; `npError` is an error raised inside
NumPy (e.g. `np.unravel_index` on a negative flat index). -/
inductive PErr where
  | ds (msg : String)
  | indexError
  | npError
deriving DecidableEq, Repr

/-- Boolean test for a `DatasetException` outcome (the InvalidIndex error of
the spec's error taxonomy; every failure of `_process_slices` itself is a
`DatasetException`). -/
def isDsError {α : Type} : Except PErr α → Bool
  | .error (.ds _) => true
  | _ => false

/-! ## Slice normalization: `Dataset._process_slices` -/

/-- The whole-axis slice `slice(None)` that `_process_slices` substitutes for
`Ellipsis` and uses to pad short index lists. -/
def wholeSlice : PyEntry := PyEntry.slice none none none

/-- The `while Ellipsis in slices` loop of `_process_slices`: every
`Ellipsis` entry is replaced by `nmiss + 1` whole-axis slices, where `nmiss`
was computed once, before the loop, as `ndim - len(slices)`.  Since the
replacement contains no `Ellipsis` and the loop always rewrites the first
remaining occurrence, the loop is equivalent to this single left-to-right
pass. -/
def expandEllipsis (nmiss : ℕ) : List PyEntry → List PyEntry
  | [] => []
  | e :: rest =>
    if e = PyEntry.ellipsis then
      List.replicate (nmiss + 1) wholeSlice ++ expandEllipsis nmiss rest
    else
      e :: expandEllipsis nmiss rest

/-- The entry loop of `_process_slices` (`for i, s in enumerate(slices)`),
carrying the running axis number `i`.  Integer entries are wrapped to
single-element slices with their axis recorded for squeezing and are not
bounds-checked; slice entries have their bounds defaulted against
`self.shape[i]` and validated to be non-negative, in-bounds and unit-step;
any other entry type raises.  Reading `shape[i]` past the rank raises a
Python `IndexError`. -/
def processEntries (shape : List ℕ) (i : ℕ) :
    List PyEntry → Except PErr (List PySlice × List ℕ)
  | [] => .ok ([], [])
  | PyEntry.int s :: rest => do
    let (fs, sq) ← processEntries shape (i + 1) rest
    .ok (PySlice.mk s (s + 1) :: fs, i :: sq)
  | PyEntry.slice a b st :: rest =>
    match shape[i]? with
    | none => .error .indexError
    | some n =>
      let start := a.getD 0
      let stop := b.getD (n : ℤ)
      if start < 0 ∨ (n : ℤ) ≤ start then
        .error (.ds "Only possitive and in-bounds slicing supported")
      else if stop < 0 ∨ (n : ℤ) < stop ∨ stop < start then
        .error (.ds "Only possitive and in-bounds slicing supported")
      else if st ≠ none ∧ st ≠ some 1 then
        .error (.ds "Only slicing with step 1 supported")
      else do
        let (fs, sq) ← processEntries shape (i + 1) rest
        .ok (PySlice.mk start stop :: fs, sq)
  | PyEntry.ellipsis :: _ =>
    .error (.ds "Invalid type in slicing, only integer or slices are supported")
  | PyEntry.other :: _ =>
    .error (.ds "Invalid type in slicing, only integer or slices are supported")

/-- Head classification of `_process_slices`: a bare `slice` or `int` is
wrapped into a one-entry list, a bare `Ellipsis` becomes `[slice(None)]`,
a `list`/`tuple` is taken as is, and any other type raises. -/
def toEntryList : PyIndexArg → Except PErr (List PyEntry)
  | .single PyEntry.ellipsis => .ok [wholeSlice]
  | .single PyEntry.other => .error (.ds "Invalid Slicing with index of invalid type")
  | .single e => .ok [e]
  | .tuple l => .ok l
  | .invalid => .error (.ds "Invalid Slicing with index of invalid type")

/-- Embedding of `Dataset._process_slices(slices, detect_squeeze)`.  The
Python method returns only the slice list when `detect_squeeze` is false;
the embedding always returns the pair (normalized slices, squeeze axes),
from which both return shapes are read off. -/
def processSlices (shape : List ℕ) (arg : PyIndexArg) :
    Except PErr (List PySlice × List ℕ) :=
  let ndim := shape.length
  match toEntryList arg with
  | .error e => .error e
  | .ok slices0 =>
    if slices0.length ≤ ndim then
      let nmiss := ndim - slices0.length
      let slices1 := expandEllipsis nmiss slices0
      let slices2 :=
        if slices1.length < ndim then slices1 ++ List.replicate nmiss wholeSlice
        else slices1
      processEntries shape 0 slices2
    else
      .error (.ds "Invalid slicing of dataset dimension with larger slicing")

/-- Entry carrying a slice whose step is present and different from 1. -/
def badStep : PyEntry → Bool
  | PyEntry.slice _ _ (some k) => decide (k ≠ 1)
  | _ => false

/-- An index argument containing (at top level or inside the list) a slice
entry whose step is present and different from 1. -/
def argHasBadStep : PyIndexArg → Bool
  | .single e => badStep e
  | .tuple l => l.any badStep
  | .invalid => false

/-- A slice entry whose resolved bounds, against an axis of extent `n`, are
negative or out of the axis's extent (the condition of the spec's
InvalidIndex for slices). -/
def badBound (n : ℕ) (a b : Option ℤ) : Bool :=
  decide (a.getD 0 < 0 ∨ (n : ℤ) ≤ a.getD 0 ∨ b.getD (n : ℤ) < 0 ∨ (n : ℤ) < b.getD (n : ℤ))

/-- Processing a single entry against an axis of extent `n` necessarily
raises a `DatasetException`: a bounds violation, a step different from 1, or
an entry type the loop rejects. -/
def entryFails (n : ℕ) : PyEntry → Bool
  | PyEntry.int _ => false
  | PyEntry.slice a b st =>
    (decide (a.getD 0 < 0 ∨ (n : ℤ) ≤ a.getD 0) ||
     decide (b.getD (n : ℤ) < 0 ∨ (n : ℤ) < b.getD (n : ℤ) ∨ b.getD (n : ℤ) < a.getD 0)) ||
    (match st with
     | some k => decide (k ≠ 1)
     | none => false)
  | PyEntry.ellipsis => true
  | PyEntry.other => true

/-! ## Lemmas about the entry loop and ellipsis expansion -/

/-- A step different from 1 makes the entry fail against any axis extent. -/
lemma badStep_entryFails (n : ℕ) (e : PyEntry) (h : badStep e = true) :
    entryFails n e = true := by
  cases e with
  | slice a b st =>
    cases st with
    | none => simp [badStep] at h
    | some k => simp [badStep] at h; simp [entryFails, h]
  | int i => simp [badStep] at h
  | ellipsis => rfl
  | other => rfl

/-- An entry with a bad step is not the ellipsis object. -/
lemma badStep_ne_ellipsis (e : PyEntry) (h : badStep e = true) :
    e ≠ PyEntry.ellipsis := by
  cases e <;> simp_all [badStep]

/-- If some entry of the list fails against its axis extent, the entry loop of
`_process_slices` raises a `DatasetException`. -/
lemma processEntries_fails (shape : List ℕ) :
    ∀ (entries : List PyEntry) (i j : ℕ) (e : PyEntry) (n : ℕ),
      entries[j]? = some e → shape[i + j]? = some n → entryFails n e = true →
      isDsError (processEntries shape i entries) = true := by
  intro entries
  induction entries with
  | nil => intro i j e n hj _ _; simp at hj
  | cons h rest ih =>
    intro i j e n hj hn hf
    cases j with
    | zero =>
      simp only [List.getElem?_cons_zero, Option.some.injEq] at hj
      subst hj
      cases h with
      | int s => simp [entryFails] at hf
      | ellipsis => simp [processEntries, isDsError]
      | other => simp [processEntries, isDsError]
      | slice a b st =>
        have hn0 : shape[i]? = some n := by simpa using hn
        simp only [processEntries, hn0]
        split
        · rfl
        · split
          · rfl
          · split
            · rfl
            · rename_i hc1 hc2 hc3
              exfalso
              simp only [entryFails, Bool.or_eq_true, decide_eq_true_eq] at hf
              rcases hf with (hf | hf) | hf
              · exact hc1 hf
              · exact hc2 hf
              · cases st with
                | none => simp at hf
                | some k =>
                  simp only [decide_eq_true_eq] at hf
                  exact hc3 ⟨by simp, by simpa using hf⟩
    | succ j =>
      rw [List.getElem?_cons_succ] at hj
      have hn' : shape[(i + 1) + j]? = some n := by
        rw [show (i + 1) + j = i + (j + 1) by omega]; exact hn
      have hrec := ih (i + 1) j e n hj hn' hf
      have hlen : i + (j + 1) < shape.length := (List.getElem?_eq_some.mp hn).1
      cases h with
      | int s =>
        cases hr : processEntries shape (i + 1) rest with
        | error err =>
          rw [hr] at hrec
          simpa [processEntries, hr] using hrec
        | ok v => rw [hr] at hrec; simp [isDsError] at hrec
      | ellipsis => simp [processEntries, isDsError]
      | other => simp [processEntries, isDsError]
      | slice a b st =>
        have hi : i < shape.length := by omega
        obtain ⟨nv, hsh⟩ : ∃ nv, shape[i]? = some nv := ⟨_, List.getElem?_eq_getElem hi⟩
        simp only [processEntries, hsh]
        split
        · rfl
        · split
          · rfl
          · split
            · rfl
            · cases hr : processEntries shape (i + 1) rest with
              | error err =>
                rw [hr] at hrec
                simpa [hr] using hrec
              | ok v => rw [hr] at hrec; simp [isDsError] at hrec

/-- Position of a non-ellipsis entry after the ellipsis expansion pass: each
earlier ellipsis contributes `nmiss` extra entries. -/
lemma expandEllipsis_getElem (nm : ℕ) :
    ∀ (l : List PyEntry) (j : ℕ) (e : PyEntry),
      l[j]? = some e → e ≠ PyEntry.ellipsis →
      (expandEllipsis nm l)[j + nm * ((l.take j).countP (fun x => decide (x = PyEntry.ellipsis)))]?
        = some e := by
  intro l
  induction l with
  | nil => intro j e hj _; simp at hj
  | cons h rest ih =>
    intro j e hj hne
    cases j with
    | zero =>
      simp only [List.getElem?_cons_zero, Option.some.injEq] at hj
      subst hj
      simp only [List.take_zero, List.countP_nil, Nat.mul_zero, Nat.add_zero]
      rw [expandEllipsis, if_neg hne]
      simp
    | succ j =>
      rw [List.getElem?_cons_succ] at hj
      by_cases hh : h = PyEntry.ellipsis
      · subst hh
        have hcnt : ((PyEntry.ellipsis :: rest).take (j + 1)).countP
            (fun x => decide (x = PyEntry.ellipsis))
            = ((rest.take j).countP (fun x => decide (x = PyEntry.ellipsis))) + 1 := by
          simp [List.take_succ_cons, List.countP_cons]
        rw [hcnt, expandEllipsis, if_pos rfl]
        rw [List.getElem?_append_right
          (by rw [List.length_replicate, Nat.mul_succ]; omega)]
        rw [List.length_replicate]
        rw [show j + 1 + nm * (((rest.take j).countP
              (fun x => decide (x = PyEntry.ellipsis))) + 1) - (nm + 1)
            = j + nm * ((rest.take j).countP (fun x => decide (x = PyEntry.ellipsis)))
          by rw [Nat.mul_succ]; omega]
        exact ih j e hj hne
      · have hcnt : ((h :: rest).take (j + 1)).countP
            (fun x => decide (x = PyEntry.ellipsis))
            = (rest.take j).countP (fun x => decide (x = PyEntry.ellipsis)) := by
          simp [List.take_succ_cons, List.countP_cons, hh]
        rw [hcnt, expandEllipsis, if_neg hh]
        rw [show j + 1 + nm * ((rest.take j).countP (fun x => decide (x = PyEntry.ellipsis)))
              = (j + nm * ((rest.take j).countP (fun x => decide (x = PyEntry.ellipsis)))) + 1
            by omega]
        rw [List.getElem?_cons_succ]
        exact ih j e hj hne

/-- If a list index argument contains, at position `j`, a non-ellipsis entry
that fails against the axis extent found at the entry's post-expansion
position, `_process_slices` raises a `DatasetException`. -/
lemma processSlices_tuple_fails (shape : List ℕ) (l : List PyEntry) (j : ℕ)
    (e : PyEntry) (n : ℕ) (hj : l[j]? = some e) (hne : e ≠ PyEntry.ellipsis)
    (hfail : entryFails n e = true)
    (hpos : shape[j + (shape.length - l.length) *
      ((l.take j).countP (fun x => decide (x = PyEntry.ellipsis)))]? = some n) :
    isDsError (processSlices shape (.tuple l)) = true := by
  by_cases hlen : l.length ≤ shape.length
  · have hexp := expandEllipsis_getElem (shape.length - l.length) l j e hj hne
    set pos := j + (shape.length - l.length) *
      ((l.take j).countP (fun x => decide (x = PyEntry.ellipsis))) with hposdef
    simp only [processSlices, toEntryList, hlen, if_pos]
    split
    · rename_i hpad
      have hlt : pos < (expandEllipsis (shape.length - l.length) l).length :=
        (List.getElem?_eq_some.mp hexp).1
      have hexp2 : ((expandEllipsis (shape.length - l.length) l) ++
          List.replicate (shape.length - l.length) wholeSlice)[pos]? = some e := by
        rw [List.getElem?_append_left hlt]; exact hexp
      exact processEntries_fails shape _ 0 pos e n hexp2 (by simpa using hpos) hfail
    · exact processEntries_fails shape _ 0 pos e n hexp (by simpa using hpos) hfail
  · simp [processSlices, toEntryList, hlen, isDsError]

/-- C2: on a pool-engine dataset of shape (10, 10, 10), the index
`(5, Ellipsis)` normalizes to `[slice(5,6), slice(0,10), slice(0,10)]` with
axis 0 recorded for squeezing, and every index containing a slice whose step
is present and different from 1 fails with the InvalidIndex error
(a `DatasetException`). -/
theorem dosna_C2 (arg : PyIndexArg) (h : argHasBadStep arg = true) :
    processSlices [10, 10, 10] (.tuple [.int 5, .ellipsis])
      = .ok ([PySlice.mk 5 6, PySlice.mk 0 10, PySlice.mk 0 10], [0])
    ∧ isDsError (processSlices [10, 10, 10] arg) = true := by
  refine ⟨by rfl, ?_⟩
  cases arg with
  | invalid => simp [argHasBadStep] at h
  | single e =>
    simp only [argHasBadStep] at h
    cases e with
    | int i => simp [badStep] at h
    | ellipsis => simp [badStep] at h
    | other => simp [badStep] at h
    | slice a b st =>
      have hds : isDsError (processSlices [10, 10, 10]
          (.tuple [PyEntry.slice a b st])) = true := by
        refine processSlices_tuple_fails [10, 10, 10] [PyEntry.slice a b st] 0 _ 10
          rfl (by simp) (badStep_entryFails 10 _ h) ?_
        simp
      exact hds
  | tuple l =>
    simp only [argHasBadStep] at h
    obtain ⟨e, hmem, hbad⟩ := List.any_eq_true.mp h
    obtain ⟨j, hj⟩ := List.mem_iff_getElem?.mp hmem
    have hjlen : j < l.length := (List.getElem?_eq_some.mp hj).1
    have hcEle : (l.take j).countP (fun x => decide (x = PyEntry.ellipsis)) ≤ j :=
      le_trans (List.countP_le_length _) (by rw [List.length_take]; omega)
    by_cases hlen : l.length ≤ 3
    · have hposlt : j + (3 - l.length) *
          ((l.take j).countP (fun x => decide (x = PyEntry.ellipsis))) < 3 := by
        have h3 : l.length = 1 ∨ l.length = 2 ∨ l.length = 3 := by omega
        rcases h3 with h3 | h3 | h3 <;> rw [h3] <;> omega
      have hall : ∀ k, k < 3 → ([10, 10, 10] : List ℕ)[k]? = some 10 := by decide
      exact processSlices_tuple_fails [10, 10, 10] l j e 10 hj
        (badStep_ne_ellipsis e hbad) (badStep_entryFails 10 e hbad)
        (hall _ hposlt)
    · simp [processSlices, toEntryList, hlen, isDsError]

/-- Witness for C2 at the concrete index `slice(None, None, 2)`. -/
theorem dosna_C2_witness :
    argHasBadStep (.single (.slice none none (some 2))) = true ∧
    (processSlices [10, 10, 10] (.tuple [.int 5, .ellipsis])
        = .ok ([PySlice.mk 5 6, PySlice.mk 0 10, PySlice.mk 0 10], [0])
      ∧ isDsError (processSlices [10, 10, 10]
          (.single (.slice none none (some 2)))) = true) :=
  ⟨by decide, dosna_C2 (.single (.slice none none (some 2))) (by decide)⟩

/-- C7 counterexample: a bare integer entry whose value 100 is far out of the
axis extent 10 is accepted by `_process_slices` (it is wrapped to
`slice(100, 101)` with no bounds validation), so out-of-bounds indexes do not
always fail during slice normalization. -/
theorem dosna_C7_counterexample :
    processSlices [10] (.single (.int 100)) = .ok ([PySlice.mk 100 101], [0]) := by
  rfl

/-- C7 (amended): for an index list without ellipsis entries, any slice entry
whose resolved bounds are negative or out of the axis's extent causes
`_process_slices` to fail with the InvalidIndex error; bare integer entries
are wrapped without any bounds validation (see the counterexample). -/
theorem dosna_C7_amended (shape : List ℕ) (l : List PyEntry) (j : ℕ)
    (a b st : Option ℤ) (n : ℕ)
    (hnoell : ∀ e ∈ l, e ≠ PyEntry.ellipsis)
    (hj : l[j]? = some (PyEntry.slice a b st))
    (hn : shape[j]? = some n)
    (hbad : badBound n a b = true) :
    isDsError (processSlices shape (.tuple l)) = true := by
  have hcE : (l.take j).countP (fun x => decide (x = PyEntry.ellipsis)) = 0 := by
    rw [List.countP_eq_zero]
    intro x hx
    simp [hnoell x (List.mem_of_mem_take hx)]
  have hfail : entryFails n (PyEntry.slice a b st) = true := by
    simp only [entryFails, Bool.or_eq_true, decide_eq_true_eq]
    simp only [badBound, decide_eq_true_eq] at hbad
    tauto
  refine processSlices_tuple_fails shape l j _ n hj (by simp) hfail ?_
  rw [hcE, Nat.mul_zero, Nat.add_zero]
  exact hn

/-- Witness for the amended C7: `slice(11, None)` on a single-axis dataset of
extent 10 fails slice normalization. -/
theorem dosna_C7_witness :
    (∀ e ∈ ([PyEntry.slice (some 11) none none] : List PyEntry),
        e ≠ PyEntry.ellipsis) ∧
    ([PyEntry.slice (some 11) none none] : List PyEntry)[0]?
        = some (PyEntry.slice (some 11) none none) ∧
    ([10] : List ℕ)[0]? = some 10 ∧
    badBound 10 (some 11) none = true ∧
    isDsError (processSlices [10] (.tuple [PyEntry.slice (some 11) none none])) = true :=
  ⟨by decide, rfl, rfl, by decide,
    dosna_C7_amended [10] _ 0 (some 11) none none 10 (by decide) rfl rfl (by decide)⟩

/-! ## Chunk/region mapping: `Dataset._get_chunk_slice_iterator` -/

/-- Python `range(a, b)` over integers, as a list. -/
def intRange (a b : ℤ) : List ℤ := (List.range (b - a).toNat).map (fun k : ℕ => a + k)

/-- Per-axis body of `Dataset._get_chunk_slice_iterator`: for one normalized
global slice, the chunk axis size `c` and the chunk-grid extent `m` of that
axis, the list of (chunk index, local slice, global slice) triples, exactly
as computed by the Python loop over `range(start_chunk, end_chunk + 1)`
(Python `//` is `Int.fdiv`). -/
def chunkSliceIteratorAxis (sl : PySlice) (c m : ℕ) : List (ℤ × PySlice × PySlice) :=
  let startChunk := sl.start.fdiv (c : ℤ)
  let endChunk := min (sl.stop.fdiv (c : ℤ)) ((m : ℤ) - 1)
  let padStart := sl.start - startChunk * (c : ℤ)
  let padStop := sl.stop - (max 0 endChunk) * (c : ℤ)
  (intRange startChunk (endChunk + 1)).map (fun i =>
    let s := if i = startChunk then padStart else 0
    let t := if i = endChunk then padStop else (c : ℤ)
    let g := i * (c : ℤ) - sl.start
    (i, PySlice.mk s t, PySlice.mk (g + s) (g + t)))

/-- Full chunk/region iterator of `Dataset._get_chunk_slice_iterator`: the
cartesian product of the per-axis triple lists, in the `np.ndindex`
enumeration order (first axis slowest), yielding one (chunk index tuple,
local slice list, global slice list) record per touched chunk.  Each axis is
given as (normalized slice, chunk axis size, chunk-grid extent). -/
def chunkSliceIterator : List (PySlice × ℕ × ℕ) → List (List ℤ × List PySlice × List PySlice)
  | [] => [([], [], [])]
  | (sl, c, m) :: rest =>
    (chunkSliceIteratorAxis sl c m).flatMap (fun t =>
      (chunkSliceIterator rest).map (fun r => (t.1 :: r.1, t.2.1 :: r.2.1, t.2.2 :: r.2.2)))

/-- Membership of a point coordinate in one global slice. -/
def cover1 (s : PySlice) (x : ℤ) : Bool := decide (s.start ≤ x) && decide (x < s.stop)

/-- Membership of a point in the multi-axis region described by a list of
global slices. -/
def coversB : List PySlice → List ℤ → Bool
  | [], [] => true
  | g :: gs, x :: xs => cover1 g x && coversB gs xs
  | _, _ => false

/-- Membership of a point in the requested region, in output coordinates:
each component lies in `[0, stop − start)` of its axis. -/
def inBoxB : List (PySlice × ℕ × ℕ) → List ℤ → Bool
  | [], [] => true
  | (sl, _, _) :: rest, x :: xs =>
    (decide (0 ≤ x) && decide (x < sl.stop - sl.start)) && inBoxB rest xs
  | _, _ => false

/-- Well-formedness of one axis, as guaranteed by `_process_slices` and the
dataset geometry: positive chunk axis size and grid extent, and a normalized
in-bounds slice (`0 ≤ start ≤ stop`, `start < m·c` and `stop ≤ m·c`; both
follow from `start < shape ≤ m·c` and `stop ≤ shape` with
`m = ceil(shape / c)`). -/
def axisOK : PySlice × ℕ × ℕ → Bool
  | (sl, c, m) =>
    decide (0 < c) && decide (0 < m) && decide (0 ≤ sl.start) &&
    decide (sl.start ≤ sl.stop) && decide (sl.start < (m : ℤ) * (c : ℤ)) &&
    decide (sl.stop ≤ (m : ℤ) * (c : ℤ))

/-- Chunk index tuple lying componentwise within the chunk grid. -/
def idxInGrid : List ℤ → List (PySlice × ℕ × ℕ) → Bool
  | [], [] => true
  | i :: irest, (_, _, m) :: rest =>
    (decide (0 ≤ i) && decide (i < (m : ℤ))) && idxInGrid irest rest
  | _, _ => false

/-- Global slice list of a record forming, on each axis, a well-formed
sub-interval of the requested output extent. -/
def regionInBox : List PySlice → List (PySlice × ℕ × ℕ) → Bool
  | [], [] => true
  | g :: gs, (sl, _, _) :: rest =>
    (decide (0 ≤ g.start) && decide (g.start ≤ g.stop) &&
     decide (g.stop ≤ sl.stop - sl.start)) && regionInBox gs rest
  | _, _ => false

/-! ## Helper lemmas for integer ranges and counting -/

lemma mem_intRange {u v i : ℤ} : i ∈ intRange u v ↔ u ≤ i ∧ i < v := by
  unfold intRange
  constructor
  · intro hm
    rcases List.mem_map.mp hm with ⟨k, hk, rfl⟩
    have := List.mem_range.mp hk
    omega
  · rintro ⟨h1, h2⟩
    exact List.mem_map.mpr ⟨(i - u).toNat, List.mem_range.mpr (by omega), by omega⟩

lemma nodup_intRange (u v : ℤ) : (intRange u v).Nodup := by
  unfold intRange
  exact (List.nodup_range _).map (by intro x y h; simp only [] at h; omega)

lemma countP_decide_eq_one {α : Type} [DecidableEq α] :
    ∀ (l : List α) (a : α), l.Nodup → a ∈ l →
      l.countP (fun x => decide (x = a)) = 1 := by
  intro l a
  induction l with
  | nil => intro _ h; simp at h
  | cons b rest ih =>
    intro hnd hmem
    rw [List.countP_cons]
    rcases List.mem_cons.mp hmem with heq | hmem'
    · have hnotin : a ∉ rest := by
        rw [heq]
        exact (List.nodup_cons.mp hnd).1
      have hz : rest.countP (fun x => decide (x = a)) = 0 :=
        List.countP_eq_zero.mpr (fun x hx => by
          simp only [decide_eq_true_eq]
          rintro rfl
          exact hnotin hx)
      simp [hz, ← heq]
    · have hb : b ≠ a := by
        rintro rfl
        exact (List.nodup_cons.mp hnd).1 hmem'
      rw [ih (List.nodup_cons.mp hnd).2 hmem']
      simp [hb]

lemma countP_flatMap {α β : Type} (l : List α) (g : α → List β) (p : β → Bool) :
    (l.flatMap g).countP p = (l.map (fun a => (g a).countP p)).sum := by
  induction l with
  | nil => simp
  | cons a rest ih => simp [List.flatMap_cons, List.countP_append, ih]

lemma sum_map_ite_one {α : Type} (l : List α) (p : α → Bool) :
    (l.map (fun a => if p a = true then 1 else 0)).sum = l.countP p := by
  induction l with
  | nil => simp
  | cons a rest ih => simp [List.countP_cons, ih]; omega

/-! ## Per-axis properties of the chunk iterator -/

lemma axisOK_elim {sl : PySlice} {c m : ℕ} (hOK : axisOK (sl, c, m) = true) :
    0 < (c : ℤ) ∧ 1 ≤ (m : ℤ) ∧ 0 ≤ sl.start ∧ sl.start ≤ sl.stop ∧
    sl.start < (m : ℤ) * (c : ℤ) ∧ sl.stop ≤ (m : ℤ) * (c : ℤ) := by
  simp only [axisOK, Bool.and_eq_true, decide_eq_true_eq] at hOK
  obtain ⟨⟨⟨⟨⟨hc, hm⟩, h0⟩, hss⟩, hsm⟩, htm⟩ := hOK
  exact ⟨by exact_mod_cast hc, by exact_mod_cast hm, h0, hss, hsm, htm⟩

/-- On a well-formed axis, each point of the requested extent is covered by
exactly one global slice among the triples yielded for that axis. -/
lemma axis_cover (sl : PySlice) (c m : ℕ) (hOK : axisOK (sl, c, m) = true)
    (x : ℤ) (hx0 : 0 ≤ x) (hx : x < sl.stop - sl.start) :
    (chunkSliceIteratorAxis sl c m).countP (fun t => cover1 t.2.2 x) = 1 := by
  obtain ⟨hC, hM, h0, hss, hsm, htm⟩ := axisOK_elim hOK
  have hfd1 : sl.start.fdiv (c : ℤ) = sl.start / (c : ℤ) := Int.fdiv_eq_ediv _ (le_of_lt hC)
  have hfd2 : sl.stop.fdiv (c : ℤ) = sl.stop / (c : ℤ) := Int.fdiv_eq_ediv _ (le_of_lt hC)
  simp only [chunkSliceIteratorAxis, hfd1, hfd2]
  set sc : ℤ := sl.start / (c : ℤ) with hscdef
  set ec : ℤ := min (sl.stop / (c : ℤ)) ((m : ℤ) - 1) with hecdef
  have f1 : sc * (c : ℤ) ≤ sl.start := Int.ediv_mul_le _ (ne_of_gt hC)
  have f2 : sl.start < (sc + 1) * (c : ℤ) := Int.lt_ediv_add_one_mul_self _ hC
  have f2t : sl.stop < (sl.stop / (c : ℤ) + 1) * (c : ℤ) := Int.lt_ediv_add_one_mul_self _ hC
  have f3 : (0 : ℤ) ≤ sc := Int.ediv_nonneg h0 (le_of_lt hC)
  have fscm : sc < (m : ℤ) := (Int.ediv_lt_iff_lt_mul hC).mpr hsm
  have f4 : sc ≤ ec := by
    rw [hecdef]
    exact le_min (Int.ediv_le_ediv hC hss) (by omega)
  have f5 : ec * (c : ℤ) ≤ sl.stop := by
    have h1 : ec ≤ sl.stop / (c : ℤ) := by rw [hecdef]; exact min_le_left _ _
    exact le_trans (mul_le_mul_of_nonneg_right h1 (le_of_lt hC)) (Int.ediv_mul_le _ (ne_of_gt hC))
  have f6 : sl.stop ≤ (ec + 1) * (c : ℤ) := by
    rcases le_or_lt (sl.stop / (c : ℤ)) ((m : ℤ) - 1) with hle | hlt
    · rw [hecdef, min_eq_left hle]
      exact le_of_lt f2t
    · rw [hecdef, min_eq_right (le_of_lt hlt)]
      calc sl.stop ≤ (m : ℤ) * (c : ℤ) := htm
        _ = ((m : ℤ) - 1 + 1) * (c : ℤ) := by ring
  have f8 : (0 : ℤ) ≤ ec := le_trans f3 f4
  have hmax : max 0 ec = ec := max_eq_right f8
  simp only [hmax]
  set q : ℤ := sl.start + x with hqdef
  set i0 : ℤ := q / (c : ℤ) with hi0def
  have hq1 : sl.start ≤ q := by omega
  have hq2 : q < sl.stop := by omega
  have hi0a : sc ≤ i0 := Int.ediv_le_ediv hC hq1
  have hi0b : i0 ≤ sl.stop / (c : ℤ) := Int.ediv_le_ediv hC (le_of_lt hq2)
  have hi0m : i0 < (m : ℤ) := (Int.ediv_lt_iff_lt_mul hC).mpr (lt_of_lt_of_le hq2 htm)
  have hi0c : i0 ≤ ec := by
    rw [hecdef]
    exact le_min hi0b (by omega)
  have hi0low : i0 * (c : ℤ) ≤ q := Int.ediv_mul_le _ (ne_of_gt hC)
  have hi0high : q < (i0 + 1) * (c : ℤ) := Int.lt_ediv_add_one_mul_self _ hC
  rw [List.countP_map]
  refine Eq.trans (List.countP_congr ?_)
    (countP_decide_eq_one _ i0 (nodup_intRange _ _) (mem_intRange.mpr ⟨hi0a, by omega⟩))
  intro i hi
  rw [mem_intRange] at hi
  obtain ⟨hia, hib⟩ := hi
  have hib' : i ≤ ec := by omega
  simp only [Function.comp_apply, cover1, Bool.and_eq_true, decide_eq_true_eq]
  constructor
  · rintro ⟨h1, h2⟩
    have hlow : i * (c : ℤ) ≤ q := by
      by_cases hisc : i = sc
      · rw [if_pos hisc] at h1
        rw [hisc] at h1 ⊢
        linarith
      · rw [if_neg hisc] at h1
        linarith
    have hhigh : q < (i + 1) * (c : ℤ) := by
      by_cases hiec : i = ec
      · rw [if_pos hiec] at h2
        rw [hiec] at h2 ⊢
        have hq3 : q < sl.stop := by linarith
        linarith [f6]
      · rw [if_neg hiec] at h2
        have hring : (i + 1) * (c : ℤ) = i * (c : ℤ) + (c : ℤ) := by ring
        linarith
    have hA : i ≤ i0 := by
      rw [hi0def]
      exact (Int.le_ediv_iff_mul_le hC).mpr hlow
    have hB : i0 < i + 1 := by
      rw [hi0def]
      exact (Int.ediv_lt_iff_lt_mul hC).mpr hhigh
    omega
  · intro heq
    rw [heq]
    refine ⟨?_, ?_⟩
    · by_cases hisc : i0 = sc
      · rw [if_pos hisc, hisc]
        linarith
      · rw [if_neg hisc]
        linarith
    · by_cases hiec : i0 = ec
      · rw [if_pos hiec, hiec]
        linarith
      · rw [if_neg hiec]
        have hring : (i0 + 1) * (c : ℤ) = i0 * (c : ℤ) + (c : ℤ) := by ring
        linarith

/-- On a well-formed axis, every yielded triple has its chunk index inside
the grid and its global slice inside `[0, stop − start]`. -/
lemma axis_within (sl : PySlice) (c m : ℕ) (hOK : axisOK (sl, c, m) = true) :
    ∀ t ∈ chunkSliceIteratorAxis sl c m,
      ((0 : ℤ) ≤ t.1 ∧ t.1 < (m : ℤ)) ∧
      (0 : ℤ) ≤ t.2.2.start ∧ t.2.2.start ≤ t.2.2.stop ∧
      t.2.2.stop ≤ sl.stop - sl.start := by
  obtain ⟨hC, hM, h0, hss, hsm, htm⟩ := axisOK_elim hOK
  have hfd1 : sl.start.fdiv (c : ℤ) = sl.start / (c : ℤ) := Int.fdiv_eq_ediv _ (le_of_lt hC)
  have hfd2 : sl.stop.fdiv (c : ℤ) = sl.stop / (c : ℤ) := Int.fdiv_eq_ediv _ (le_of_lt hC)
  simp only [chunkSliceIteratorAxis, hfd1, hfd2]
  set sc : ℤ := sl.start / (c : ℤ) with hscdef
  set ec : ℤ := min (sl.stop / (c : ℤ)) ((m : ℤ) - 1) with hecdef
  have f1 : sc * (c : ℤ) ≤ sl.start := Int.ediv_mul_le _ (ne_of_gt hC)
  have f2 : sl.start < (sc + 1) * (c : ℤ) := Int.lt_ediv_add_one_mul_self _ hC
  have f3 : (0 : ℤ) ≤ sc := Int.ediv_nonneg h0 (le_of_lt hC)
  have fscm : sc < (m : ℤ) := (Int.ediv_lt_iff_lt_mul hC).mpr hsm
  have f4 : sc ≤ ec := by
    rw [hecdef]
    exact le_min (Int.ediv_le_ediv hC hss) (by omega)
  have f5 : ec * (c : ℤ) ≤ sl.stop := by
    have h1 : ec ≤ sl.stop / (c : ℤ) := by rw [hecdef]; exact min_le_left _ _
    exact le_trans (mul_le_mul_of_nonneg_right h1 (le_of_lt hC)) (Int.ediv_mul_le _ (ne_of_gt hC))
  have f7 : ec ≤ (m : ℤ) - 1 := by rw [hecdef]; exact min_le_right _ _
  have f8 : (0 : ℤ) ≤ ec := le_trans f3 f4
  have hmax : max 0 ec = ec := max_eq_right f8
  simp only [hmax]
  intro t ht
  rcases List.mem_map.mp ht with ⟨i, hi, rfl⟩
  rw [mem_intRange] at hi
  obtain ⟨hia, hib⟩ := hi
  have hib' : i ≤ ec := by omega
  refine ⟨⟨by omega, by omega⟩, ?_, ?_, ?_⟩
  · show (0 : ℤ) ≤ i * (c : ℤ) - sl.start + (if i = sc then sl.start - sc * (c : ℤ) else 0)
    by_cases hisc : i = sc
    · rw [if_pos hisc, hisc]
      linarith
    · rw [if_neg hisc]
      have h1 : (sc + 1) * (c : ℤ) ≤ i * (c : ℤ) :=
        mul_le_mul_of_nonneg_right (by omega) (le_of_lt hC)
      linarith
  · show i * (c : ℤ) - sl.start + (if i = sc then sl.start - sc * (c : ℤ) else 0)
      ≤ i * (c : ℤ) - sl.start + (if i = ec then sl.stop - ec * (c : ℤ) else (c : ℤ))
    by_cases hisc : i = sc <;> by_cases hiec : i = ec
    · rw [if_pos hisc, if_pos hiec]
      have hscec : sc = ec := by rw [← hisc, ← hiec]
      rw [← hscec]
      linarith
    · rw [if_pos hisc, if_neg hiec, hisc]
      have hring : (sc + 1) * (c : ℤ) = sc * (c : ℤ) + (c : ℤ) := by ring
      linarith
    · rw [if_neg hisc, if_pos hiec, hiec]
      linarith
    · rw [if_neg hisc, if_neg hiec]
      linarith
  · show i * (c : ℤ) - sl.start + (if i = ec then sl.stop - ec * (c : ℤ) else (c : ℤ))
      ≤ sl.stop - sl.start
    by_cases hiec : i = ec
    · rw [if_pos hiec, hiec]
      linarith
    · rw [if_neg hiec]
      have hlt : i + 1 ≤ ec := by omega
      have h1 : (i + 1) * (c : ℤ) ≤ ec * (c : ℤ) :=
        mul_le_mul_of_nonneg_right (by exact_mod_cast hlt) (le_of_lt hC)
      have hring : (i + 1) * (c : ℤ) = i * (c : ℤ) + (c : ℤ) := by ring
      linarith

/-! ## Whole-iterator properties and claim C1 -/

/-- Every point of the requested region is covered by exactly one record of
the chunk/region iterator. -/
lemma chunkRecords_cover :
    ∀ (axes : List (PySlice × ℕ × ℕ)), (∀ a ∈ axes, axisOK a = true) →
      ∀ p : List ℤ, inBoxB axes p = true →
        (chunkSliceIterator axes).countP (fun r => coversB r.2.2 p) = 1 := by
  intro axes
  induction axes with
  | nil =>
    intro _ p hp
    cases p with
    | nil => simp [chunkSliceIterator, coversB]
    | cons x xs => simp [inBoxB] at hp
  | cons a rest ih =>
    intro hOK p hp
    obtain ⟨sl, c, m⟩ := a
    cases p with
    | nil => simp [inBoxB] at hp
    | cons x xs =>
      simp only [inBoxB, Bool.and_eq_true, decide_eq_true_eq] at hp
      obtain ⟨⟨hx0, hx⟩, hxs⟩ := hp
      have hOKa : axisOK (sl, c, m) = true := hOK _ (List.mem_cons_self _ _)
      have hOKrest : ∀ b ∈ rest, axisOK b = true :=
        fun b hb => hOK b (List.mem_cons_of_mem _ hb)
      simp only [chunkSliceIterator]
      rw [countP_flatMap]
      have hmap : ∀ t ∈ chunkSliceIteratorAxis sl c m,
          (fun t => (((chunkSliceIterator rest).map
              (fun r => (t.1 :: r.1, t.2.1 :: r.2.1, t.2.2 :: r.2.2))).countP
                (fun r => coversB r.2.2 (x :: xs)))) t
            = (fun t => if cover1 t.2.2 x = true then 1 else 0) t := by
        intro t _
        dsimp only
        rw [List.countP_map]
        by_cases hc1 : cover1 t.2.2 x = true
        · rw [if_pos hc1]
          rw [← ih hOKrest xs hxs]
          apply List.countP_congr
          intro r _
          simp [Function.comp, coversB, hc1]
        · have hc1f : cover1 t.2.2 x = false := by
            revert hc1
            cases cover1 t.2.2 x <;> simp
          rw [if_neg hc1]
          rw [List.countP_eq_zero]
          intro r _
          simp [Function.comp, coversB, hc1f]
      rw [List.map_congr_left hmap, sum_map_ite_one]
      exact axis_cover sl c m hOKa x hx0 hx

/-- Every record of the chunk/region iterator has its chunk index inside the
chunk grid and its global sub-region inside the requested region. -/
lemma chunkRecords_within :
    ∀ (axes : List (PySlice × ℕ × ℕ)), (∀ a ∈ axes, axisOK a = true) →
      ∀ r ∈ chunkSliceIterator axes,
        idxInGrid r.1 axes = true ∧ regionInBox r.2.2 axes = true := by
  intro axes
  induction axes with
  | nil =>
    intro _ r hr
    simp only [chunkSliceIterator, List.mem_singleton] at hr
    subst hr
    exact ⟨rfl, rfl⟩
  | cons a rest ih =>
    intro hOK r hr
    obtain ⟨sl, c, m⟩ := a
    simp only [chunkSliceIterator] at hr
    rcases List.mem_flatMap.mp hr with ⟨t, ht, hr2⟩
    rcases List.mem_map.mp hr2 with ⟨r0, hr0, rfl⟩
    have haxis := axis_within sl c m (hOK _ (List.mem_cons_self _ _)) t ht
    have hrest := ih (fun b hb => hOK b (List.mem_cons_of_mem _ hb)) r0 hr0
    constructor
    · show idxInGrid (t.1 :: r0.1) ((sl, c, m) :: rest) = true
      simp only [idxInGrid, Bool.and_eq_true, decide_eq_true_eq]
      exact ⟨⟨haxis.1.1, haxis.1.2⟩, hrest.1⟩
    · show regionInBox (t.2.2 :: r0.2.2) ((sl, c, m) :: rest) = true
      simp only [regionInBox, Bool.and_eq_true, decide_eq_true_eq]
      exact ⟨⟨⟨haxis.2.1, haxis.2.2.1⟩, haxis.2.2.2⟩, hrest.2⟩

/-- C1: for every normalized in-bounds slice list over a pool-engine dataset
(one well-formed axis per entry: positive chunk size and grid extent, slice
within the axis extent), the records yielded by
`Dataset._get_chunk_slice_iterator` exactly cover the requested region:
every point of the region lies in exactly one record's global sub-region (no
gaps and no overlaps between distinct records), every record's global
sub-region lies inside the region, and every yielded chunk index lies within
the chunk grid. -/
theorem dosna_C1 (axes : List (PySlice × ℕ × ℕ)) (h : ∀ a ∈ axes, axisOK a = true) :
    (∀ p : List ℤ, inBoxB axes p = true →
      (chunkSliceIterator axes).countP (fun r => coversB r.2.2 p) = 1) ∧
    (∀ r ∈ chunkSliceIterator axes,
      idxInGrid r.1 axes = true ∧ regionInBox r.2.2 axes = true) :=
  ⟨chunkRecords_cover axes h, chunkRecords_within axes h⟩

/-- Witness for C1 on a one-axis dataset with slice `[1, 5)`, chunk size 3
and chunk grid extent 2. -/
theorem dosna_C1_witness :
    (∀ a ∈ [(PySlice.mk 1 5, 3, 2)], axisOK a = true) ∧
    ((∀ p : List ℤ, inBoxB [(PySlice.mk 1 5, 3, 2)] p = true →
        (chunkSliceIterator [(PySlice.mk 1 5, 3, 2)]).countP
          (fun r => coversB r.2.2 p) = 1) ∧
     (∀ r ∈ chunkSliceIterator [(PySlice.mk 1 5, 3, 2)],
        idxInGrid r.1 [(PySlice.mk 1 5, 3, 2)] = true ∧
        regionInBox r.2.2 [(PySlice.mk 1 5, 3, 2)] = true)) :=
  ⟨by decide, dosna_C1 [(PySlice.mk 1 5, 3, 2)] (by decide)⟩

/-! ## Read scatter of `Dataset.__getitem__` and claim C3 -/

/-- Local chunk coordinates of an output point: on each axis the local slice
start plus the offset of the point inside the record's global slice (the
assignment `output[gslice] = chunk_data` aligns `gslice.start` with local
position 0 of the chunk data read with `lslice`). -/
def localCoords : List PySlice → List PySlice → List ℤ → List ℤ
  | ls :: lss, gs :: gss, x :: xs => (ls.start + (x - gs.start)) :: localCoords lss gss xs
  | _, _, _ => []

/-- Value contributed at output point `p` by a record `r`, reading the chunk
through the abstract valuation `chunkData` (the deterministic result of
`_get_chunk_data(idx, slices=cslice)`, identical on both read paths). -/
def chunkContrib (chunkData : List ℤ → List ℤ → ℤ)
    (r : List ℤ × List PySlice × List PySlice) (p : List ℤ) : ℤ :=
  chunkData r.1 (localCoords r.2.1 r.2.2 p)

/-- Scatter loop of `Dataset.__getitem__`: starting from the initial output
array, each record assigns its chunk data over its global sub-region
(`output[gslice] = ...`).  Arrays are embedded as valuation functions on
coordinate lists. -/
def npScatter (val : (List ℤ × List PySlice × List PySlice) → List ℤ → ℤ)
    (init : List ℤ → ℤ) (records : List (List ℤ × List PySlice × List PySlice)) :
    List ℤ → ℤ :=
  records.foldl (fun acc r => fun p => if coversB r.2.2 p then val r p else acc p) init

/-- Sequential read path of `Dataset.__getitem__` (`njobs` unset or 1): the
output is staged with `np.full(tshape, -1, dtype)` and the records are
scattered in iterator order. -/
def getItemSeq (chunkData : List ℤ → List ℤ → ℤ) (axes : List (PySlice × ℕ × ℕ)) :
    List ℤ → ℤ :=
  npScatter (chunkContrib chunkData) (fun _ => -1) (chunkSliceIterator axes)

/-- Parallel read path of `Dataset.__getitem__` (`njobs > 1`): the output is
staged in a zero-initialized memory-mapped scratch array and one thread task
per record scatters its chunk into the shared output; `order` is the order
in which the concurrent tasks happen to commit their disjoint writes (an
arbitrary permutation of the iterator's records). -/
def getItemPar (chunkData : List ℤ → List ℤ → ℤ)
    (order : List (List ℤ × List PySlice × List PySlice)) : List ℤ → ℤ :=
  npScatter (chunkContrib chunkData) (fun _ => 0) order

lemma npScatter_eq_init (val : (List ℤ × List PySlice × List PySlice) → List ℤ → ℤ) :
    ∀ (l : List (List ℤ × List PySlice × List PySlice)) (init : List ℤ → ℤ) (p : List ℤ),
      (∀ r ∈ l, coversB r.2.2 p = false) → npScatter val init l p = init p := by
  intro l
  induction l with
  | nil => intro init p _; rfl
  | cons r rest ih =>
    intro init p hnone
    have h0 : coversB r.2.2 p = false := hnone r (List.mem_cons_self _ _)
    calc npScatter val init (r :: rest) p
        = npScatter val (fun q => if coversB r.2.2 q then val r q else init q) rest p := rfl
      _ = (fun q => if coversB r.2.2 q then val r q else init q) p :=
          ih _ p (fun s hs => hnone s (List.mem_cons_of_mem _ hs))
      _ = init p := by simp [h0]

lemma npScatter_unique (val : (List ℤ × List PySlice × List PySlice) → List ℤ → ℤ) :
    ∀ (l : List (List ℤ × List PySlice × List PySlice)) (init : List ℤ → ℤ)
      (p : List ℤ) (r : List ℤ × List PySlice × List PySlice),
      l.countP (fun s => coversB s.2.2 p) = 1 → r ∈ l → coversB r.2.2 p = true →
      npScatter val init l p = val r p := by
  intro l
  induction l with
  | nil => intro init p r _ hmem _; simp at hmem
  | cons s rest ih =>
    intro init p r hcount hmem hcov
    rw [List.countP_cons] at hcount
    by_cases hs : coversB s.2.2 p = true
    · have hrest0 : rest.countP (fun u => coversB u.2.2 p) = 0 := by
        simp only [hs, if_pos] at hcount
        omega
      have hreq : r = s := by
        rcases List.mem_cons.mp hmem with h | h
        · exact h
        · exact absurd hcov (List.countP_eq_zero.mp hrest0 r h)
      subst hreq
      calc npScatter val init (r :: rest) p
          = npScatter val (fun q => if coversB r.2.2 q then val r q else init q) rest p := rfl
        _ = (fun q => if coversB r.2.2 q then val r q else init q) p :=
            npScatter_eq_init val rest _ p (fun u hu => by
              have hnu := List.countP_eq_zero.mp hrest0 u hu
              revert hnu
              cases coversB u.2.2 p <;> simp)
        _ = val r p := if_pos hcov
    · have hs' : coversB s.2.2 p = false := by
        revert hs
        cases coversB s.2.2 p <;> simp
      have hcount' : rest.countP (fun u => coversB u.2.2 p) = 1 := by
        simp [hs'] at hcount
        omega
      have hmem' : r ∈ rest := by
        rcases List.mem_cons.mp hmem with h | h
        · rw [h, hs'] at hcov
          cases hcov
        · exact h
      calc npScatter val init (s :: rest) p
          = npScatter val (fun q => if coversB s.2.2 q then val s q else init q) rest p := rfl
        _ = val r p := ih _ p r hcount' hmem' hcov

/-- C3: for a pool-engine dataset (each axis well-formed), reading any
in-bounds region with parallelism width 1 (sequential scatter into an output
pre-filled with −1) and reading the same region with width greater than 1
(per-chunk thread tasks scattering into a zero-initialized staged output,
committing their disjoint writes in an arbitrary order) yield identical
values at every point of the region; since the records exactly cover the
region, the whole result arrays are bit-identical. -/
theorem dosna_C3 (axes : List (PySlice × ℕ × ℕ)) (h : ∀ a ∈ axes, axisOK a = true)
    (chunkData : List ℤ → List ℤ → ℤ)
    (order : List (List ℤ × List PySlice × List PySlice))
    (hperm : order.Perm (chunkSliceIterator axes))
    (p : List ℤ) (hp : inBoxB axes p = true) :
    getItemSeq chunkData axes p = getItemPar chunkData order p := by
  have hcount := chunkRecords_cover axes h p hp
  have hpos : 0 < (chunkSliceIterator axes).countP (fun r => coversB r.2.2 p) := by
    omega
  obtain ⟨r, hmem, hcov⟩ := List.countP_pos_iff.mp hpos
  have hcount2 : order.countP (fun s => coversB s.2.2 p) = 1 := by
    rw [List.Perm.countP_eq _ hperm]
    exact hcount
  have hmem2 : r ∈ order := (List.Perm.mem_iff hperm).mpr hmem
  rw [getItemSeq, getItemPar]
  rw [npScatter_unique _ _ _ _ r hcount hmem hcov,
    npScatter_unique _ _ _ _ r hcount2 hmem2 hcov]

/-- Witness for C3 on a one-axis dataset with slice `[0, 2)`, chunk size 1,
chunk grid extent 2, a nontrivial chunk valuation, and the reversed task
commit order. -/
theorem dosna_C3_witness :
    (∀ a ∈ [(PySlice.mk 0 2, 1, 2)], axisOK a = true) ∧
    ((chunkSliceIterator [(PySlice.mk 0 2, 1, 2)]).reverse).Perm
      (chunkSliceIterator [(PySlice.mk 0 2, 1, 2)]) ∧
    inBoxB [(PySlice.mk 0 2, 1, 2)] [1] = true ∧
    getItemSeq (fun idx loc => idx.sum * 10 + loc.sum) [(PySlice.mk 0 2, 1, 2)] [1]
      = getItemPar (fun idx loc => idx.sum * 10 + loc.sum)
          ((chunkSliceIterator [(PySlice.mk 0 2, 1, 2)]).reverse) [1] :=
  ⟨by decide, List.reverse_perm _, by decide,
    dosna_C3 _ (by decide) _ _ (List.reverse_perm _) [1] (by decide)⟩

/-! ## Pool-engine dataset model -/

/-- A NumPy array embedded as a shape together with a total valuation from
integer coordinate lists to elements. -/
structure Arr where
  shape : List ℕ
  val : List ℤ → ℤ

/-- NumPy `np.full(shape, v)`. -/
def npFull (shape : List ℕ) (v : ℤ) : Arr := Arr.mk shape (fun _ => v)

/-- NumPy basic indexing `a[slices]` with one unit-step slice per axis: the
shape shrinks to the slice extents and each coordinate is offset by its
slice's start. -/
def subArr (a : Arr) (sls : List PySlice) : Arr :=
  Arr.mk (sls.map (fun s => (s.stop - s.start).toNat))
    (fun p => a.val (List.zipWith (fun (s : PySlice) (x : ℤ) => s.start + x) sls p))

/-- Cached geometry of a pool-engine `Dataset` (the values `Dataset.__init__`
reads back from the pool's attribute store): name, shape, fill value, chunk
size and chunk grid. -/
structure DatasetM where
  name : String
  shape : List ℕ
  fillvalue : ℤ
  chunk_size : List ℕ
  chunks : List ℕ
deriving DecidableEq, Repr

/-- Derived attribute `self._total_chunks = np.prod(self._chunks)`. -/
def DatasetM.totalChunks (ds : DatasetM) : ℕ := ds.chunks.prod

/-- Chunk object naming `Dataset.__chunkname`:
`DataChunk. + self.name + . + .-joined chunk index components`. -/
def chunkName (ds : DatasetM) (idx : List ℤ) : String :=
  "DataChunk." ++ ds.name ++ "." ++ String.intercalate "." (idx.map toString)

/-- State of the object-storage pool as seen by the chunk data paths: the
existing chunk objects by name, each carrying its array payload (the byte
payload reinterpreted through `np.fromstring` / `tobytes`, which round-trip
for a chunk of known shape and dtype).  The pool itself is the external
collaborator of spec section 6. -/
structure PoolM where
  objects : List (String × Arr)

/-- Pool-level `has_chunk(name)`: existence of the named object. -/
def PoolM.hasChunk (p : PoolM) (name : String) : Bool :=
  (p.objects.lookup name).isSome

/-- Embedding of `Dataset._get_chunk_data(chunk_idx, slices)` together with
the pool state after the call: when the chunk's backing object exists the
call reads it (the whole chunk via `DataChunk.get_data`, or a sub-region via
`DataChunk.get_slices`); otherwise it returns `np.full` of the requested
shape (the full chunk shape when `slices` is absent) filled with the
dataset's fill value.  No path performs a pool write. -/
def getChunkData (ds : DatasetM) (pool : PoolM) (idx : List ℤ)
    (slices : Option (List PySlice)) : Arr × PoolM :=
  match pool.objects.lookup (chunkName ds idx) with
  | some a =>
    (match slices with
     | none => a
     | some sl => subArr a sl, pool)
  | none =>
    let shape := match slices with
      | none => ds.chunk_size
      | some sl => sl.map (fun s => (s.stop - s.start).toNat)
    (npFull shape ds.fillvalue, pool)

/-- C4: reading the data of a chunk index whose backing pool object has
never been written returns an array of the requested sub-shape (or the full
chunk shape when no sub-region is given) whose every element equals the
dataset's fill value, and the read creates no backing object: `has_chunk`
for that index is still false afterwards. -/
theorem dosna_C4 (ds : DatasetM) (pool : PoolM) (idx : List ℤ)
    (slices : Option (List PySlice))
    (h : pool.hasChunk (chunkName ds idx) = false) :
    (getChunkData ds pool idx slices).1.shape
        = (match slices with
           | none => ds.chunk_size
           | some sl => sl.map (fun s => (s.stop - s.start).toNat)) ∧
    (∀ p : List ℤ, (getChunkData ds pool idx slices).1.val p = ds.fillvalue) ∧
    (getChunkData ds pool idx slices).2 = pool ∧
    (getChunkData ds pool idx slices).2.hasChunk (chunkName ds idx) = false := by
  have hnone : pool.objects.lookup (chunkName ds idx) = none := by
    unfold PoolM.hasChunk at h
    cases hl : pool.objects.lookup (chunkName ds idx)
    · rfl
    · rw [hl] at h
      simp at h
  unfold getChunkData
  rw [hnone]
  refine ⟨?_, ?_, rfl, h⟩
  · cases slices <;> rfl
  · intro p
    cases slices <;> rfl

/-- Witness for C4: an empty pool, a dataset of chunk size (2), chunk index
(0), whole-chunk read. -/
theorem dosna_C4_witness :
    (PoolM.mk []).hasChunk (chunkName (DatasetM.mk "data" [4] 7 [2] [2]) [0]) = false ∧
    ((getChunkData (DatasetM.mk "data" [4] 7 [2] [2]) (PoolM.mk []) [0] none).1.shape = [2] ∧
     (∀ p : List ℤ,
        (getChunkData (DatasetM.mk "data" [4] 7 [2] [2]) (PoolM.mk []) [0] none).1.val p = 7) ∧
     (getChunkData (DatasetM.mk "data" [4] 7 [2] [2]) (PoolM.mk []) [0] none).2 = PoolM.mk [] ∧
     (getChunkData (DatasetM.mk "data" [4] 7 [2] [2]) (PoolM.mk []) [0] none).2.hasChunk
       (chunkName (DatasetM.mk "data" [4] 7 [2] [2]) [0]) = false) :=
  ⟨rfl, dosna_C4 (DatasetM.mk "data" [4] 7 [2] [2]) (PoolM.mk []) [0] none rfl⟩

/-! ## Dataset creation preflight: `Dataset.create` (claim C5) -/

/-- Failure outcomes around `Dataset.create`: the pool client's
`rados.ObjectNotFound`, the `DatasetException` raised for a duplicate name
(AlreadyExists in the spec taxonomy), and the Python `TypeError` escaping
`_validate_chunk_shape` when `int(chunks)` is applied to a sequence of the
wrong length (only `ValueError` is caught there). -/
inductive CErr where
  | objectNotFound
  | alreadyExists
  | typeError
deriving DecidableEq, Repr

/-- Typed attribute values stored by `Dataset.create` through the
serialization utilities (`shape2str` / `dtype2str` / `repr`).  Modelled from
the spec: the utilities live in `dosna/utils.py`, which is not among this
tree's sources, and spec section 4.1 specifies them as exactly
round-tripping encoders, so the embedding stores the decoded values
directly. -/
inductive AttrVal where
  | shapeV (s : List ℕ)
  | dtypeV (d : String)
  | fillV (v : ℤ)
deriving DecidableEq, Repr

/-- Pool state touched by `Dataset.create`: named objects with string
payloads, and per-object attribute records `(object name, key, value)`. -/
structure PoolD where
  objects : List (String × String)
  xattrs : List (String × String × AttrVal)
deriving DecidableEq, Repr

def poolHasObject (p : PoolD) (name : String) : Bool :=
  (p.objects.lookup name).isSome

/-- Pool `stat(name)`: size of the named object, or the client's
`ObjectNotFound` condition when no such object exists. -/
def poolStat (p : PoolD) (name : String) : Except CErr ℕ :=
  match p.objects.lookup name with
  | some payload => .ok payload.length
  | none => .error .objectNotFound

def poolWrite (p : PoolD) (name payload : String) : PoolD :=
  PoolD.mk ((name, payload) :: p.objects) p.xattrs

def poolSetXattr (p : PoolD) (name key : String) (v : AttrVal) : PoolD :=
  PoolD.mk p.objects ((name, key, v) :: p.xattrs)

/-- Argument forms accepted for `chunks` by `Dataset.create`. -/
inductive ChunksArg where
  | noneA
  | intA (n : ℕ)
  | listA (l : List ℕ)
deriving DecidableEq, Repr

/-- Embedding of `Dataset._validate_chunk_shape(chunks, shape)`: no value
means one chunk spanning the whole shape; an integer is repeated once per
axis; a sequence is used as given when its length matches the rank.  A
sequence of the wrong length falls through to `int(chunks)`, which raises a
Python `TypeError` (the code catches only `ValueError`). -/
def validateChunkShape (chunks : ChunksArg) (shape : List ℕ) : Except CErr (List ℕ) :=
  match chunks with
  | .noneA => .ok shape
  | .intA n => .ok (List.replicate shape.length n)
  | .listA l => if l.length = shape.length then .ok l else .error .typeError

/-- Ceiling division, modelling `np.ceil(np.asarray(shape, float) /
chunk_size).astype(int)` on positive integers. -/
def ceilDiv (s c : ℕ) : ℕ := (s + c - 1) / c

/-- The fixed dataset signature marker `Dataset.__signature__`. -/
def datasetSignature : String := "DosNa.Dataset"

/-- Body of `Dataset.create` after the existence preflight, for creation
without a source array (`data=None`, the case the claim concerns): validate
the chunk shape, compute the chunk grid, write the signature object, set the
five attributes in order, and return the dataset wrapper (whose `__init__`
reads the attributes back; the attribute store round-trips, so the wrapper
carries the written values). -/
def datasetCreateBody (pool : PoolD) (name : String) (shape : List ℕ)
    (dtype : String) (fillvalue : ℤ) (chunks : ChunksArg) :
    Except CErr DatasetM × PoolD :=
  match validateChunkShape chunks shape with
  | .error e => (.error e, pool)
  | .ok chunk_size =>
    let chunks_needed := List.zipWith ceilDiv shape chunk_size
    let p1 := poolWrite pool name datasetSignature
    let p2 := poolSetXattr p1 name "shape" (.shapeV shape)
    let p3 := poolSetXattr p2 name "dtype" (.dtypeV dtype)
    let p4 := poolSetXattr p3 name "fillvalue" (.fillV fillvalue)
    let p5 := poolSetXattr p4 name "chunks" (.shapeV chunks_needed)
    let p6 := poolSetXattr p5 name "chunk_size" (.shapeV chunk_size)
    (.ok (DatasetM.mk name shape fillvalue chunk_size chunks_needed), p6)

/-- Embedding of `Dataset.create`: the preflight `try: pool.stat(name);
raise DatasetException(already exists) except rados.ObjectNotFound: pass` —
a successful stat raises before anything is written; the not-found condition
is swallowed and creation proceeds with the body. -/
def datasetCreate (pool : PoolD) (name : String) (shape : List ℕ)
    (dtype : String) (fillvalue : ℤ) (chunks : ChunksArg) :
    Except CErr DatasetM × PoolD :=
  match poolStat pool name with
  | .ok _ => (.error .alreadyExists, pool)
  | .error _ => datasetCreateBody pool name shape dtype fillvalue chunks

def isAlreadyExistsErr {α : Type} : Except CErr α → Bool
  | .error .alreadyExists => true
  | _ => false

def isNotFoundErr {α : Type} : Except CErr α → Bool
  | .error .objectNotFound => true
  | _ => false

/-- C5: `Dataset.create` fails with the AlreadyExists error exactly when a
pool object of the given name already exists: a successful stat raises
before writing anything (the pool is returned untouched), while the stat's
not-found condition is absorbed (never propagated) and creation proceeds
with the body — which itself never raises AlreadyExists nor a not-found
error. -/
theorem dosna_C5 (pool : PoolD) (name : String) (shape : List ℕ)
    (dtype : String) (fillvalue : ℤ) (chunks : ChunksArg) :
    datasetCreate pool name shape dtype fillvalue chunks
      = (if poolHasObject pool name
         then (.error .alreadyExists, pool)
         else datasetCreateBody pool name shape dtype fillvalue chunks) ∧
    isAlreadyExistsErr (datasetCreateBody pool name shape dtype fillvalue chunks).1 = false ∧
    isNotFoundErr (datasetCreateBody pool name shape dtype fillvalue chunks).1 = false := by
  refine ⟨?_, ?_, ?_⟩
  · unfold datasetCreate poolStat poolHasObject
    cases hl : pool.objects.lookup name <;> simp [hl]
  · cases chunks with
    | noneA => rfl
    | intA n => rfl
    | listA l =>
      by_cases hlen : l.length = shape.length <;>
        simp [datasetCreateBody, validateChunkShape, hlen, isAlreadyExistsErr]
  · cases chunks with
    | noneA => rfl
    | intA n => rfl
    | listA l =>
      by_cases hlen : l.length = shape.length <;>
        simp [datasetCreateBody, validateChunkShape, hlen, isNotFoundErr]

/-! ## Chunk index normalization: `Dataset._transform_chunk_index` (claim C6) -/

/-- NumPy `np.unravel_index(i, dims)` in C order for an in-range flat index:
the component for the first axis is the flat index divided by the product of
the remaining extents, recursing on the remainder. -/
def npUnravelIndex (i : ℕ) : List ℕ → List ℤ
  | [] => []
  | _ :: ds => ((i / ds.prod : ℕ) : ℤ) :: npUnravelIndex (i % ds.prod) ds

/-- Argument forms of `_transform_chunk_index`: a bare integer, or a
multi-axis index list (covering both a plain tuple of integers and the
unwrapped content of a singleton list/tuple containing the real tuple). -/
inductive ChunkIdxArg where
  | int (i : ℤ)
  | multi (l : List ℤ)
deriving DecidableEq, Repr

/-- Rank/grid validation tail of `_transform_chunk_index`: the index must
have one component per axis of the dataset's shape, and
`any(c1 >= c2 for c1, c2 in izip(idx, self.chunks))` raises the out-of-grid
error.  (No lower bound is checked by the code.) -/
def checkChunkIdx (ds : DatasetM) (idx : List ℤ) : Except PErr (List ℤ) :=
  if idx.length = ds.shape.length then
    if (idx.zip ds.chunks).any (fun pr => decide ((pr.2 : ℤ) ≤ pr.1)) then
      .error (.ds "Out of limits chunk indexing")
    else
      .ok idx
  else
    .error (.ds "Incorrect chunk indexing format")

/-- Embedding of `Dataset._transform_chunk_index(idx)`.  A bare integer is
wrapped to a one-element list.  A one-element list, on a dataset of rank
greater than 1 whose entry is below the total chunk count, takes the flat
path and is unraveled against the chunk grid (the Python guard
`idx < self.total_chunks` compares a list against a NumPy integer, which
broadcasts elementwise over the single entry and is truthy exactly when
that entry is below the count); `np.unravel_index` itself raises on a
negative flat index. -/
def transformChunkIndex (ds : DatasetM) (arg : ChunkIdxArg) : Except PErr (List ℤ) :=
  let idx : List ℤ := match arg with
    | .int i => [i]
    | .multi l => l
  match idx with
  | [i] =>
    if 1 < ds.shape.length ∧ i < (ds.totalChunks : ℤ) then
      if i < 0 then .error .npError
      else checkChunkIdx ds (npUnravelIndex i.toNat ds.chunks)
    else
      checkChunkIdx ds [i]
  | _ => checkChunkIdx ds idx

/-- Multi-axis chunk index lying componentwise within a chunk grid given as
a list of extents. -/
def idxInGridN : List ℤ → List ℕ → Bool
  | [], [] => true
  | i :: irest, g :: grest =>
    (decide (0 ≤ i) && decide (i < (g : ℤ))) && idxInGridN irest grest
  | _, _ => false

lemma npUnravelIndex_length :
    ∀ (dims : List ℕ) (i : ℕ), (npUnravelIndex i dims).length = dims.length := by
  intro dims
  induction dims with
  | nil => intro i; rfl
  | cons d rest ih => intro i; simp [npUnravelIndex, ih]

/-- An unraveled in-range flat index lies inside the chunk grid. -/
lemma npUnravelIndex_inGrid :
    ∀ (dims : List ℕ) (i : ℕ), (∀ d ∈ dims, 0 < d) → i < dims.prod →
      idxInGridN (npUnravelIndex i dims) dims = true := by
  intro dims
  induction dims with
  | nil => intro i _ _; rfl
  | cons d rest ih =>
    intro i hpos hi
    have hrestpos : ∀ x ∈ rest, 0 < x := fun x hx => hpos x (List.mem_cons_of_mem _ hx)
    have hprodpos : 0 < rest.prod := List.prod_pos hrestpos
    simp only [npUnravelIndex, idxInGridN, Bool.and_eq_true, decide_eq_true_eq]
    refine ⟨⟨by exact_mod_cast Nat.zero_le _, ?_⟩, ?_⟩
    · have hdiv : i / rest.prod < d := by
        rw [Nat.div_lt_iff_lt_mul hprodpos]
        calc i < (d :: rest).prod := hi
          _ = d * rest.prod := List.prod_cons
      exact_mod_cast hdiv
    · exact ih (i % rest.prod) hrestpos (Nat.mod_lt _ hprodpos)

/-- A componentwise in-grid index trips no out-of-grid comparison. -/
lemma idxInGridN_noOut :
    ∀ (idx : List ℤ) (grid : List ℕ), idxInGridN idx grid = true →
      (idx.zip grid).any (fun pr => decide ((pr.2 : ℤ) ≤ pr.1)) = false := by
  intro idx
  induction idx with
  | nil => intro grid _; cases grid <;> rfl
  | cons i irest ih =>
    intro grid h
    cases grid with
    | nil => simp [idxInGridN] at h
    | cons g grest =>
      simp only [idxInGridN, Bool.and_eq_true, decide_eq_true_eq] at h
      obtain ⟨⟨h0, hlt⟩, hrest⟩ := h
      have hnle : ¬ ((g : ℤ) ≤ i) := not_le.mpr hlt
      simp [List.zip_cons_cons, hnle, ih grest hrest]

/-- C6: on a dataset of rank greater than 1, a single integer `i` with
`0 ≤ i <` total chunk count passed to `_transform_chunk_index` (the common
entry of `has_chunk` / `get_chunk` / `get_chunk_data` / `set_chunk_data`) is
treated as a flat index and unraveled against the chunk grid; the unraveled
multi-axis index matches the rank and lies strictly inside the chunk grid,
so the operation succeeds, while any multi-axis index of the right rank with
a component reaching its grid extent fails with the
chunk-index-out-of-grid error. -/
theorem dosna_C6 (ds : DatasetM) (i : ℕ)
    (hrank : 1 < ds.shape.length)
    (hlen : ds.chunks.length = ds.shape.length)
    (hpos : ∀ g ∈ ds.chunks, 0 < g)
    (hi : i < ds.totalChunks) :
    transformChunkIndex ds (.int (i : ℤ)) = .ok (npUnravelIndex i ds.chunks) ∧
    idxInGridN (npUnravelIndex i ds.chunks) ds.chunks = true ∧
    (∀ l : List ℤ, l.length = ds.shape.length →
      (l.zip ds.chunks).any (fun pr => decide ((pr.2 : ℤ) ≤ pr.1)) = true →
      transformChunkIndex ds (.multi l) = .error (.ds "Out of limits chunk indexing")) := by
  have hgrid := npUnravelIndex_inGrid ds.chunks i hpos hi
  refine ⟨?_, hgrid, ?_⟩
  · show (if 1 < ds.shape.length ∧ (i : ℤ) < (ds.totalChunks : ℤ) then
        if (i : ℤ) < 0 then .error .npError
        else checkChunkIdx ds (npUnravelIndex ((i : ℤ)).toNat ds.chunks)
      else checkChunkIdx ds [(i : ℤ)]) = .ok (npUnravelIndex i ds.chunks)
    rw [if_pos ⟨hrank, by exact_mod_cast hi⟩]
    rw [if_neg (by omega)]
    rw [Int.toNat_natCast]
    unfold checkChunkIdx
    rw [if_pos (by rw [npUnravelIndex_length]; exact hlen)]
    rw [idxInGridN_noOut _ _ hgrid]
    simp
  · intro l hl hany
    cases l with
    | nil =>
      exfalso
      rw [← hl] at hrank
      simp at hrank
    | cons a rest =>
      cases rest with
      | nil =>
        exfalso
        rw [← hl] at hrank
        simp at hrank
      | cons b rest2 =>
        show checkChunkIdx ds (a :: b :: rest2) = .error (.ds "Out of limits chunk indexing")
        unfold checkChunkIdx
        rw [if_pos hl, if_pos hany]

/-- Witness for C6: a rank-2 dataset with chunk grid (2, 2) and flat index
3, which unravels to (1, 1). -/
theorem dosna_C6_witness :
    1 < (DatasetM.mk "data2" [4, 6] 0 [2, 3] [2, 2]).shape.length ∧
    (DatasetM.mk "data2" [4, 6] 0 [2, 3] [2, 2]).chunks.length
      = (DatasetM.mk "data2" [4, 6] 0 [2, 3] [2, 2]).shape.length ∧
    (∀ g ∈ (DatasetM.mk "data2" [4, 6] 0 [2, 3] [2, 2]).chunks, 0 < g) ∧
    3 < (DatasetM.mk "data2" [4, 6] 0 [2, 3] [2, 2]).totalChunks ∧
    (transformChunkIndex (DatasetM.mk "data2" [4, 6] 0 [2, 3] [2, 2]) (.int (3 : ℕ))
        = .ok (npUnravelIndex 3 (DatasetM.mk "data2" [4, 6] 0 [2, 3] [2, 2]).chunks) ∧
     idxInGridN (npUnravelIndex 3 (DatasetM.mk "data2" [4, 6] 0 [2, 3] [2, 2]).chunks)
        (DatasetM.mk "data2" [4, 6] 0 [2, 3] [2, 2]).chunks = true ∧
     (∀ l : List ℤ, l.length = (DatasetM.mk "data2" [4, 6] 0 [2, 3] [2, 2]).shape.length →
        (l.zip (DatasetM.mk "data2" [4, 6] 0 [2, 3] [2, 2]).chunks).any
          (fun pr => decide ((pr.2 : ℤ) ≤ pr.1)) = true →
        transformChunkIndex (DatasetM.mk "data2" [4, 6] 0 [2, 3] [2, 2]) (.multi l)
          = .error (.ds "Out of limits chunk indexing"))) :=
  ⟨by decide, by decide, by decide, by decide,
    dosna_C6 (DatasetM.mk "data2" [4, 6] 0 [2, 3] [2, 2]) 3
      (by decide) (by decide) (by decide) (by decide)⟩

/-! ## RAM backend: group tree (`MemGroup`, claims C8 and C10) -/

/-- The RAM backend's group tree: a group is its links table, a list of
(name, child group) edges (`MemLink` source and name are implicit in the
position).  Dataset link targets are not needed by the verified lookup
paths. -/
inductive GTree where
  | node : List (String × GTree) → GTree

/-- Links table of a group. -/
def GTree.links : GTree → List (String × GTree)
  | .node ls => ls

/-- RAM-backend group errors. -/
inductive GErr where
  | groupNotFound
deriving DecidableEq, Repr

/-- Python `str.split(sep)` on a character separator: splitting on every
occurrence, keeping empty segments (so the result is never empty). -/
def splitChars (sep : Char) : List Char → List (List Char)
  | [] => [[]]
  | c :: rest =>
    if c = sep then [] :: splitChars sep rest
    else
      match splitChars sep rest with
      | g :: gs => (c :: g) :: gs
      | [] => [[c]]

/-- Python `path.split("/")`. -/
def pySplit (sep : Char) (s : String) : List String :=
  (splitChars sep s.toList).map (fun cs => String.mk cs)

/-- The `_recurse` helper of `MemGroup.get_group`: check whether the first
path segment is in the links table; descend into the target's links while
segments remain, return the final target, and return Python `None` (here
`Option.none`) when a segment is absent. -/
def memGroupRecurse : List String → List (String × GTree) → Option GTree
  | [], _ => none
  | [a], links => List.lookup a links
  | a :: rest, links =>
    match List.lookup a links with
    | some t => memGroupRecurse rest t.links
    | none => none

/-- Embedding of `MemGroup.get_group(path)`: split the path on `/`, recurse
through the links, and raise `GroupNotFoundError` when the recursion comes
back empty. -/
def memGetGroup (g : GTree) (path : String) : Except GErr GTree :=
  match memGroupRecurse (pySplit '/' path) g.links with
  | some t => .ok t
  | none => .error .groupNotFound

/-- Python truthiness of a `MemGroup` instance: objects are always truthy. -/
def pyTruthy (t : GTree) : Bool :=
  match t with
  | .node _ => true

/-- Embedding of `MemGroup.has_group(path)`: evaluate `get_group(path)`
(propagating its `GroupNotFoundError`); on success the body evaluates the
bare expression `True` without returning it, falls off the end of the
function and returns Python `None` (the unreachable `else` branch would
raise). -/
def memHasGroup (g : GTree) (path : String) : Except GErr (Option Bool) :=
  match memGetGroup g path with
  | .ok t => if pyTruthy t then .ok none else .error .groupNotFound
  | .error e => .error e

/-- C8 evaluated at the failing input: on a root group with one child `a`,
`has_group("a")` succeeds but returns Python `None` — not `true` as the
claim states (the `True` in the source is a bare expression statement, not a
`return`) — while `has_group("b")` does propagate the `GroupNotFoundError`
from `get_group` as the claim states. -/
theorem dosna_C8_eval :
    memHasGroup (GTree.node [("a", GTree.node [])]) "a" = .ok none ∧
    memHasGroup (GTree.node [("a", GTree.node [])]) "b" = .error .groupNotFound :=
  ⟨rfl, rfl⟩

/-! ## RAM backend: connection-level group creation (claim C10) -/

/-- Python `str.isalnum()`: true exactly for a non-empty string of
alphanumeric characters. -/
def pyIsAlnum (s : String) : Bool := !s.isEmpty && s.toList.all Char.isAlphanum

/-- Outcomes of `MemConnection.create_group`. -/
inductive CGErr where
  | notAlphanumeric
  | rootAlreadyExists
deriving DecidableEq, Repr

/-- Embedding of `MemConnection.create_group(path)`: reject a
non-alphanumeric path; otherwise, when the path differs from `/`, delegate
to `self.root_group.create_group(path, attrs)` (returning the path as a
stand-in for the delegated call), else raise the dedicated
"Group / already exists" error. -/
def memConnCreateGroup (path : String) : Except CGErr String :=
  if !(pyIsAlnum path) then .error .notAlphanumeric
  else if path ≠ "/" then .ok path
  else .error .rootAlreadyExists

/-- Test for the dedicated root-path error of `MemConnection.create_group`. -/
def isRootExistsErr : Except CGErr String → Bool
  | .error .rootAlreadyExists => true
  | _ => false

/-- C10: the root-path error branch of `MemConnection.create_group` is
unreachable — every path passing the alphanumeric check differs from `/`,
so the dedicated "Group / already exists" error is never raised, and calling
`create_group("/")` instead fails with the non-alphanumeric error. -/
theorem dosna_C10 :
    (∀ path : String, isRootExistsErr (memConnCreateGroup path) = false) ∧
    memConnCreateGroup "/" = .error .notAlphanumeric := by
  constructor
  · intro path
    unfold memConnCreateGroup
    by_cases halnum : pyIsAlnum path = true
    · have hne : path ≠ "/" := by
        intro hcontra
        rw [hcontra] at halnum
        exact absurd halnum (by decide)
      rw [halnum]
      simp [hne, isRootExistsErr]
    · have hfalse : pyIsAlnum path = false := by
        revert halnum
        cases pyIsAlnum path <;> simp
      rw [hfalse]
      rfl
  · rfl

/-! ## RAM backend: `MemDataChunk` (claim C9) -/

/-- NumPy indexing `a[None]` (i.e. `a[np.newaxis]`): inserts a new leading
axis of extent 1; the values are those of `a` with the first coordinate
dropped. -/
def npNewAxis (a : Arr) : Arr :=
  Arr.mk (1 :: a.shape) (fun p => a.val (p.drop 1))

/-- NumPy region assignment `a[slices] = values` with one unit-step slice
per axis: points inside the region take the value of `values` at the
region-relative coordinates; points outside keep their value. -/
def sliceAssign (a : Arr) (sls : List PySlice) (values : Arr) : Arr :=
  Arr.mk a.shape
    (fun p =>
      if coversB sls p then
        values.val (List.zipWith (fun (s : PySlice) (x : ℤ) => x - s.start) sls p)
      else
        a.val p)

/-- The RAM backend's `MemDataChunk`: shape, fill value and the dense
backing array, allocated at construction as
`np.full(shape, fillvalue, dtype)`. -/
structure MemDataChunk where
  shape : List ℕ
  fillvalue : ℤ
  data : Arr

/-- `MemDataChunk.__init__`: the backing array is pre-filled with the fill
value. -/
def MemDataChunk.create (shape : List ℕ) (fillvalue : ℤ) : MemDataChunk :=
  MemDataChunk.mk shape fillvalue (npFull shape fillvalue)

/-- Embedding of `MemDataChunk.get_data(slices=None)`, i.e.
`return self.data[slices]`: with no sub-region the Python `None` default is
used directly as the index, and `self.data[None]` inserts a new leading
axis; with a sub-region it returns that region. -/
def memChunkGetData (ch : MemDataChunk) (slices : Option (List PySlice)) : Arr :=
  match slices with
  | none => npNewAxis ch.data
  | some sl => subArr ch.data sl

/-- Embedding of `MemDataChunk.set_data(values, slices=None)`, i.e.
`self.data[slices] = values`: with no sub-region the assignment target
`self.data[None]` is a whole-array view with a leading broadcast axis, so
the assignment overwrites the entire backing array with `values`; with a
sub-region it assigns that region. -/
def memChunkSetData (ch : MemDataChunk) (values : Arr)
    (slices : Option (List PySlice)) : MemDataChunk :=
  match slices with
  | none => MemDataChunk.mk ch.shape ch.fillvalue (Arr.mk ch.data.shape values.val)
  | some sl => MemDataChunk.mk ch.shape ch.fillvalue (sliceAssign ch.data sl values)

/-- C9 counterexample: for a fresh chunk of chunk size (2), `get_data()`
returns an array of shape (1, 2) — `self.data[None]` inserts a new leading
axis — not the backing array of shape (2) the claim describes. -/
theorem dosna_C9_counterexample :
    (memChunkGetData (MemDataChunk.create [2] 5) none).shape = [1, 2] ∧
    ¬ ((memChunkGetData (MemDataChunk.create [2] 5) none).shape = [2]) :=
  ⟨rfl, by decide⟩

/-- C9 (amended): for every RAM-backend `MemDataChunk`, `get_data()` called
with no sub-region returns a view of the full backing array with one extra
leading axis of extent 1 (shape `1 :: chunk_size`), every element equal to
the fill value when the chunk was never written; and `set_data(values)` with
no sub-region overwrites the whole backing array in place with `values`. -/
theorem dosna_C9_amended (shape : List ℕ) (fv : ℤ) (values : Arr) :
    (memChunkGetData (MemDataChunk.create shape fv) none).shape = 1 :: shape ∧
    (∀ p : List ℤ, (memChunkGetData (MemDataChunk.create shape fv) none).val p = fv) ∧
    (memChunkSetData (MemDataChunk.create shape fv) values none).data.shape = shape ∧
    (∀ p : List ℤ,
      (memChunkSetData (MemDataChunk.create shape fv) values none).data.val p
        = values.val p) :=
  ⟨rfl, fun _ => rfl, rfl, fun _ => rfl⟩
